import Mathlib

/-!
Verification of mbutil (src/mbutil/util.py): a shallow embedding of the
conversion engine between a tiled-map directory pyramid and an MBTiles
container, together with proofs of the specified properties.

Conventions of the embedding:
- Python integers are `Int` (or `Nat` where the source guarantees
  non-negativity, such as a parsed zoom level).
- Byte strings are `List Nat`.
- The SQLite tiles table is a list of `TileRow` in rowid order; a
  freshly imported table has contiguous rowids 1..N, so list position i
  corresponds to rowid i+1.
- Fallible operations (Python exceptions) return `Option` or are paired
  with an error component.
- `uuid.uuid4()` is modelled by a fresh-identifier counter: every minted
  identifier is distinct, which is what the source relies on.
- The external gzip decompressor used for the pbf format is a parameter
  of the export function.
-/

namespace Mbutil

/-- util.py line 16: `flip_y(zoom, y) = (2**zoom - 1) - y`. -/
def flip_y (zoom : Nat) (y : Int) : Int := (2 ^ zoom - 1) - y

/-- A row of the `tiles` table: (zoom_level, tile_column, tile_row, tile_data). -/
structure TileRow where
  z : Nat
  x : Int
  y : Int
  data : List Nat
deriving DecidableEq, Repr

/-- Decimal digits of a natural, zero-padded to width `w`
(Python `%0wd` applied to a non-negative value). -/
def padDigits (w : Nat) (n : Nat) : String :=
  let s := toString n
  String.mk (List.replicate (w - s.length) '0') ++ s

/-- Python `"%0wd" % n` for an `Int` (the sign counts against the width). -/
def padNum (w : Nat) (n : Int) : String :=
  if n < 0 then "-" ++ padDigits (w - 1) (Int.toNat (-n))
  else padDigits w (Int.toNat n)

/-- util.py lines 287-293: the six directory segments of the `wms`
export scheme.  Python 2 `/` on ints is floor division and `%` is the
floor-convention remainder, hence `Int.fdiv` and `Int.fmod`. -/
def wms_tile_dir (z : Nat) (x y : Int) : List String :=
  [padNum 2 (z : Int),
   padNum 3 (Int.fdiv x 1000000),
   padNum 3 (Int.fmod (Int.fdiv x 1000) 1000),
   padNum 3 (Int.fmod x 1000),
   padNum 3 (Int.fdiv y 1000000),
   padNum 3 (Int.fmod (Int.fdiv y 1000) 1000)]

/-- util.py line 297: the `wms` file name `"%03d.%s" % (int(y) % 1000, tile_format)`. -/
def wms_tile_name (y : Int) (fmt : String) : String :=
  padNum 3 (Int.fmod y 1000) ++ "." ++ fmt

/-- util.py lines 283-299: directory segments and file name of one
exported tile under the requested scheme. -/
def tile_path (scheme fmt : String) (z : Nat) (x y : Int) : List String × String :=
  if scheme = "xyz" then
    ([toString z, toString x], toString (flip_y z y) ++ "." ++ fmt)
  else if scheme = "wms" then
    (wms_tile_dir z x y, wms_tile_name y fmt)
  else
    ([toString z, toString x], toString y ++ "." ++ fmt)

/-- A file produced by the exporter: directory segments, file name, bytes. -/
structure OutFile where
  dir : List String
  name : String
  data : List Nat
deriving DecidableEq, Repr

/-- State of the export loop of `mbtiles_to_disk`: files written so far,
the `done` counter and the running `count` total. -/
structure ExportState where
  files : List OutFile
  done : Int
  count : Int
deriving Repr

/-- util.py lines 300-306: the files (zero or one) written for a single
tile row.  Zero-length tile data produces no file; under the pbf format
the stored bytes pass through the external gzip decompressor. -/
def export_file (scheme fmt : String) (gunzip : List Nat → List Nat)
    (t : TileRow) : List OutFile :=
  let p := tile_path scheme fmt t.z t.x t.y
  if t.data.length > 0 then
    [⟨p.1, p.2, if fmt = "pbf" then gunzip t.data else t.data⟩]
  else []

/-- util.py lines 278-308: one iteration of the export loop, updating
the written files, `done` and `count`. -/
def export_tile_step (scheme fmt : String) (gunzip : List Nat → List Nat)
    (st : ExportState) (t : TileRow) : ExportState :=
  { files := st.files ++ export_file scheme fmt gunzip t,
    done := if t.data.length > 0 then st.done + 1 else st.done,
    count := if t.data.length > 0 then st.count else st.count - 1 }

/-- util.py lines 250-308 (tile part of `mbtiles_to_disk`): stream the
tile rows, starting from `count` equal to the row count and `done = 0`. -/
def mbtiles_to_disk (scheme fmt : String) (gunzip : List Nat → List Nat)
    (rows : List TileRow) : ExportState :=
  rows.foldl (export_tile_step scheme fmt gunzip) ⟨[], 0, (rows.length : Int)⟩

/-- util.py lines 340-343: a grid JSON string is written plain when the
callback option is one of the sentinels, else wrapped as `cb(JSON);`. -/
def grid_callback_output (callback : Option String) (gridJson : String) : String :=
  if callback = none ∨ callback = some "" ∨ callback = some "false" ∨
      callback = some "null" then
    gridJson
  else
    callback.getD "" ++ "(" ++ gridJson ++ ");"

/-- A tile file of a source pyramid at token level: the zoom directory
token parsed as a natural, the second-level directory token and the file
base-name token parsed as integers, the extension after the first dot,
and the file bytes.  This models well-formed numeric directory trees as
walked by `disk_to_mbtiles` under a non-ags scheme. -/
structure SrcFile where
  z : Nat
  x : Int
  yTok : Int
  ext : String
  data : List Nat
deriving DecidableEq, Repr

/-- util.py lines 148-151: the image format in force after the metadata
step.  Without a metadata.json the format option defaults to "png"; when
metadata.json loads, the format is re-read from the options with no
default, so an absent option leaves it `none`. -/
def effective_image_format (metadataJsonLoaded : Bool) (fmtOpt : Option String) :
    Option String :=
  if metadataJsonLoaded then fmtOpt else some (fmtOpt.getD "png")

/-- util.py lines 163-199 (tile part of `disk_to_mbtiles`, non-ags
schemes, token level): a file becomes a tile row exactly when its
extension equals the configured image format; under the xyz scheme the
stored row is the flipped file token, otherwise the token itself. -/
def disk_to_mbtiles (scheme : String) (imageFormat : Option String)
    (tree : List SrcFile) : List TileRow :=
  (tree.filter fun f => decide (imageFormat = some f.ext)).map
    fun f =>
      if scheme = "xyz" then ⟨f.z, f.x, flip_y f.z f.yTok, f.data⟩
      else ⟨f.z, f.x, f.yTok, f.data⟩

/-- The tile rows of `rows` whose data is non-empty. -/
def nonzeroTiles (rows : List TileRow) : List TileRow :=
  rows.filter fun r => decide (0 < r.data.length)

/-- Python `int(s)` on a decimal-digit string, at character level: the
value when the string is non-empty and all digits, `none` when `int`
raises ValueError.  Signed and whitespace-padded forms do not occur in
the directory names at issue. -/
def decVal? (s : List Char) : Option Nat :=
  if s ≠ [] ∧ s.all Char.isDigit then
    some (s.foldl (fun n c => 10 * n + (c.toNat - 48)) 0)
  else none

/-- Outcome of the zoom-directory step of the import loop: whether the
scheme-mismatch warning fired, and the parsed zoom level, `none` when
the `int` call raises ValueError and the run aborts. -/
structure ZoomParse where
  warned : Bool
  z : Option Nat
deriving DecidableEq, Repr

/-- util.py lines 163-171: under the ags scheme, a zoom directory
without an L draws a warning, and the L characters are stripped before
the decimal parse (`zoomDir.replace("L", "")`); under every other
scheme, a zoom directory containing an L draws a warning and the name
is then parsed as a decimal integer unchanged. -/
def parse_zoom_dir (scheme : String) (zoomDir : List Char) : ZoomParse :=
  if scheme = "ags" then
    { warned := !(decide ('L' ∈ zoomDir)),
      z := decVal? (zoomDir.filter fun c => decide (c ≠ 'L')) }
  else
    { warned := decide ('L' ∈ zoomDir),
      z := decVal? zoomDir }

/-- Python `current_file.split(".", 1)` under two-element unpacking:
the part before the first dot and the remainder after it, or `none`
when the name holds no dot, where the unpacking raises ValueError. -/
def splitOnceDot : List Char → Option (List Char × List Char)
  | [] => none
  | c :: rest =>
    if c = '.' then some ([], rest)
    else (splitOnceDot rest).map fun p => (c :: p.1, p.2)

/-- util.py lines 177-199 (leaf-directory loop of `disk_to_mbtiles`,
name handling): each file name is split at the first dot; a name with
no dot raises at the unpacking, aborting the loop with the remaining
files unprocessed.  The first component collects the (base, extension,
bytes) records whose extension matched the image format, the second is
the name the run aborted on, if any. -/
def import_leaf_files (imageFormat : Option (List Char)) :
    List (List Char × List Nat) →
      List (List Char × List Char × List Nat) × Option (List Char)
  | [] => ([], none)
  | f :: rest =>
    match splitOnceDot f.1 with
    | none => ([], some f.1)
    | some q =>
      let r := import_leaf_files imageFormat rest
      ((if imageFormat = some q.2 then [(q.1, q.2, f.2)] else []) ++ r.1, r.2)

/-- A row of the images table: (tile_id, tile_data).  The uuid4
identifiers minted by the Python code are modelled by a fresh-identifier
counter; the source relies on their distinctness. -/
structure ImgRow where
  tile_id : Nat
  tile_data : List Nat
deriving DecidableEq, Repr

/-- A row of the map table: (zoom_level, tile_column, tile_row, tile_id). -/
structure MapRow where
  z : Nat
  x : Int
  y : Int
  tile_id : Nat
deriving DecidableEq, Repr

/-- State of the compaction pass: the next fresh identifier, the images
rows and the map rows written so far. -/
structure CompState where
  nextId : Nat
  images : List ImgRow
  map : List MapRow
deriving DecidableEq, Repr

/-- The chunk-local lookup `ids[files.index(r[3])]`: the identifier
paired with the first occurrence of the byte sequence in the chunk-local
parallel lists. -/
def lookupSeen (d : List Nat) : List (List Nat × Nat) → Option Nat
  | [] => none
  | p :: rest => if d = p.1 then some p.2 else lookupSeen d rest

/-- util.py lines 88-116: one row of a chunk.  A row whose bytes were
already seen in this chunk writes only a map row pointing at the seen
identifier; otherwise a fresh identifier is minted, the blob is stored
once in images, and a map row is written. -/
def compression_row (sp : CompState × List (List Nat × Nat)) (r : TileRow) :
    CompState × List (List Nat × Nat) :=
  match lookupSeen r.data sp.2 with
  | some i => ({ sp.1 with map := sp.1.map ++ [⟨r.z, r.x, r.y, i⟩] }, sp.2)
  | none =>
    ({ nextId := sp.1.nextId + 1,
       images := sp.1.images ++ [⟨sp.1.nextId, r.data⟩],
       map := sp.1.map ++ [⟨r.z, r.x, r.y, sp.1.nextId⟩] },
     sp.2 ++ [(r.data, sp.1.nextId)])

/-- util.py lines 79-117: one chunk, processed with a fresh chunk-local
seen list. -/
def compression_chunk (s : CompState) (rows : List TileRow) : CompState :=
  (rows.foldl compression_row (s, [])).1

/-- util.py lines 71-117: `compression_do` over a tiles table with
contiguous rowids 1..N.  Round i selects the rows with rowid in
(i*chunk, (i+1)*chunk], that is positions i*chunk to (i+1)*chunk - 1 of
the list, for rounds 0 to N/chunk. -/
def compression_do (chunk : Nat) (rows : List TileRow) : CompState :=
  (List.range (rows.length / chunk + 1)).foldl
    (fun s i => compression_chunk s ((rows.drop (i * chunk)).take chunk))
    ⟨0, [], []⟩

/-- util.py lines 119-126: after `compression_finalize` drops the tiles
table, the tiles view is the join of map and images on tile_id,
exposing (zoom_level, tile_column, tile_row, tile_data). -/
def compression_finalize (s : CompState) : List TileRow :=
  s.map.flatMap fun m =>
    (s.images.filter fun im => decide (im.tile_id = m.tile_id)).map
      fun im => ⟨m.z, m.x, m.y, im.tile_data⟩

/-- The number of distinct byte sequences among the rows, beyond those
already in `seen`. -/
def countDistinct (seen : List (List Nat)) : List TileRow → Nat
  | [] => 0
  | r :: rest =>
    if r.data ∈ seen then countDistinct seen rest
    else 1 + countDistinct (r.data :: seen) rest

/-- Invariant of the compaction state: every stored identifier is below
the counter, the image identifiers are pairwise distinct, and every map
row points below the counter. -/
def CompInv (s : CompState) : Prop :=
  (∀ im ∈ s.images, im.tile_id < s.nextId) ∧
  (s.images.map ImgRow.tile_id).Nodup ∧
  (∀ m ∈ s.map, m.tile_id < s.nextId)

/-- The chunk-local seen list only holds pairs backed by an images row. -/
def SeenInv (s : CompState) (seen : List (List Nat × Nat)) : Prop :=
  ∀ p ∈ seen, (⟨p.2, p.1⟩ : ImgRow) ∈ s.images

end Mbutil

namespace Mbutil

/-- C4: for every zoom `z` and every row `y` with `0 ≤ y < 2 ^ z`,
`flip_y z (flip_y z y) = y`: the row flip is an involution on the row
range of zoom `z`. -/
theorem flip_y_involution (z : Nat) (y : Int) (h0 : 0 ≤ y) (h1 : y < 2 ^ z) :
    flip_y z (flip_y z y) = y := by
  unfold flip_y
  ring

/-- Witness for C4 at `z = 2`, `y = 1`. -/
theorem flip_y_involution_witness :
    (0 : Int) ≤ 1 ∧ (1 : Int) < 2 ^ 2 ∧ flip_y 2 (flip_y 2 1) = 1 :=
  ⟨by decide, by decide, flip_y_involution 2 1 (by decide) (by decide)⟩

/-- C8: under the `wms` export scheme the value 1234567 decomposes into
the zero-padded base-1000 segments "001", "234" and "567": for the
column they are the second, third and fourth directory segments, for the
row the fifth and sixth directory segments are "001" and "234" and the
file name carries "567". -/
theorem wms_bucketing_1234567 :
    wms_tile_dir 7 1234567 1234567 =
      ["07", "001", "234", "567", "001", "234"] ∧
    wms_tile_name 1234567 "png" = "567.png" := by
  constructor <;> rfl

/-- C7: a non-sentinel callback string `cb` wraps the grid JSON as
`cb(JSON);`, while the sentinel callback values `none`, `""`, `"false"`
and `"null"` leave the JSON unwrapped. -/
theorem grid_callback_wrapping (cb json : String)
    (h1 : cb ≠ "") (h2 : cb ≠ "false") (h3 : cb ≠ "null") :
    grid_callback_output (some cb) json = cb ++ "(" ++ json ++ ");" ∧
    grid_callback_output none json = json ∧
    grid_callback_output (some "") json = json ∧
    grid_callback_output (some "false") json = json ∧
    grid_callback_output (some "null") json = json := by
  refine ⟨?_, rfl, rfl, rfl, rfl⟩
  unfold grid_callback_output
  rw [if_neg]
  · rfl
  · simp [h1, h2, h3]

/-- Witness for C7 at callback "cb" and grid JSON "{}". -/
theorem grid_callback_wrapping_witness :
    grid_callback_output (some "cb") "\x7b\x7d" = "cb(\x7b\x7d);" :=
  (grid_callback_wrapping "cb" "\x7b\x7d" (by decide) (by decide) (by decide)).1

/-- The row flip is an involution on all of `Int`, with no range
hypothesis: shared helper. -/
theorem flip_y_flip_y (z : Nat) (y : Int) : flip_y z (flip_y z y) = y := by
  unfold flip_y
  ring

/-- Unfolding the export loop: the final files are the initial files
followed by the per-row file lists; `done` grows by the number of
non-empty rows and `count` shrinks by the number of empty rows. -/
theorem export_fold_spec (scheme fmt : String) (gunzip : List Nat → List Nat)
    (rows : List TileRow) (st : ExportState) :
    (rows.foldl (export_tile_step scheme fmt gunzip) st).files
        = st.files ++ rows.flatMap (export_file scheme fmt gunzip) ∧
    (rows.foldl (export_tile_step scheme fmt gunzip) st).done
        = st.done + ((nonzeroTiles rows).length : Int) ∧
    (rows.foldl (export_tile_step scheme fmt gunzip) st).count
        = st.count - ((rows.length : Int) - (nonzeroTiles rows).length) := by
  induction rows generalizing st with
  | nil => refine ⟨by simp, by simp [nonzeroTiles], by simp [nonzeroTiles]⟩
  | cons r rest ih =>
    obtain ⟨ih1, ih2, ih3⟩ := ih (export_tile_step scheme fmt gunzip st r)
    refine ⟨?_, ?_, ?_⟩
    · rw [List.foldl_cons, ih1]
      by_cases h : 0 < r.data.length <;>
        simp [export_tile_step, export_file, h]
    · rw [List.foldl_cons, ih2]
      by_cases h : 0 < r.data.length <;>
        simp [export_tile_step, nonzeroTiles, List.filter_cons, h] <;> omega
    · rw [List.foldl_cons, ih3]
      by_cases h : 0 < r.data.length <;>
        simp [export_tile_step, nonzeroTiles, List.filter_cons, h] <;> omega

/-- The files component of the export is the concatenation of the
per-row file lists. -/
theorem mbtiles_to_disk_files (scheme fmt : String) (gunzip : List Nat → List Nat)
    (rows : List TileRow) :
    (mbtiles_to_disk scheme fmt gunzip rows).files
        = rows.flatMap (export_file scheme fmt gunzip) := by
  obtain ⟨h1, -, -⟩ := export_fold_spec scheme fmt gunzip rows ⟨[], 0, (rows.length : Int)⟩
  unfold mbtiles_to_disk
  rw [h1]
  simp

/-- The number of files the export loop writes equals the number of
non-empty tile rows. -/
theorem export_flatMap_length (scheme fmt : String) (gunzip : List Nat → List Nat)
    (rows : List TileRow) :
    (rows.flatMap (export_file scheme fmt gunzip)).length
        = (nonzeroTiles rows).length := by
  induction rows with
  | nil => rfl
  | cons r rest ih =>
    rw [List.flatMap_cons, List.length_append, ih]
    by_cases h : 0 < r.data.length <;>
      simp [export_file, nonzeroTiles, List.filter_cons, h] <;> omega

/-- C6: a tile row with zero-length data produces no exported file and
decrements the running total by one, so the number of exported files,
the final `done` counter and the final `count` total all agree: each
equals the number of non-empty tile rows. -/
theorem export_zero_length_accounting (scheme fmt : String)
    (gunzip : List Nat → List Nat) (rows : List TileRow) :
    (mbtiles_to_disk scheme fmt gunzip rows).files.length = (nonzeroTiles rows).length ∧
    (mbtiles_to_disk scheme fmt gunzip rows).done = ((nonzeroTiles rows).length : Int) ∧
    (mbtiles_to_disk scheme fmt gunzip rows).done
        = (mbtiles_to_disk scheme fmt gunzip rows).count := by
  obtain ⟨h1, h2, h3⟩ := export_fold_spec scheme fmt gunzip rows ⟨[], 0, (rows.length : Int)⟩
  refine ⟨?_, ?_, ?_⟩
  · rw [mbtiles_to_disk_files]
    exact export_flatMap_length scheme fmt gunzip rows
  · unfold mbtiles_to_disk
    rw [h2]
    show (0 : Int) + ((nonzeroTiles rows).length : Int) = ((nonzeroTiles rows).length : Int)
    omega
  · unfold mbtiles_to_disk
    rw [h2, h3]
    show (0 : Int) + ((nonzeroTiles rows).length : Int)
        = ((rows.length : Int))
          - (((rows.length : Int)) - ((nonzeroTiles rows).length : Int))
    omega

/-- C9: when metadata.json loads and no explicit format option is
passed, the effective image format becomes `none`, no extension ever
matches it, and the import writes zero tile rows on every tree. -/
theorem metadata_resets_format (scheme : String) (tree : List SrcFile) :
    effective_image_format true none = none ∧
    disk_to_mbtiles scheme (effective_image_format true none) tree = [] := by
  refine ⟨rfl, ?_⟩
  simp [disk_to_mbtiles, effective_image_format]

/-- C1 (amended): importing a token-level pyramid whose files all carry
the configured extension and non-empty data, under a scheme in
tms or xyz and a format other than pbf, and exporting under the same
scheme and format, reproduces every tile byte-identically at the
equivalent zoom/column/row.format path. -/
theorem disk_roundtrip (scheme fmt : String) (gunzip : List Nat → List Nat)
    (tree : List SrcFile)
    (hs : scheme = "tms" ∨ scheme = "xyz") (hfmt : fmt ≠ "pbf")
    (hext : ∀ f ∈ tree, f.ext = fmt) (hne : ∀ f ∈ tree, f.data ≠ []) :
    (mbtiles_to_disk scheme fmt gunzip (disk_to_mbtiles scheme (some fmt) tree)).files
      = tree.map (fun f =>
          ⟨[toString f.z, toString f.x], toString f.yTok ++ "." ++ fmt, f.data⟩) := by
  have hfil : tree.filter (fun f => decide (some fmt = some f.ext)) = tree := by
    rw [List.filter_eq_self]
    intro f hf
    simp [hext f hf]
  rw [mbtiles_to_disk_files]
  unfold disk_to_mbtiles
  rw [hfil, List.flatMap_map]
  clear hfil
  revert hext hne
  induction tree with
  | nil => intro _ _; rfl
  | cons f rest ih =>
    intro hext hne
    have hlen : 0 < f.data.length :=
      List.length_pos.mpr (hne f (List.mem_cons_self f rest))
    rw [List.flatMap_cons, List.map_cons,
      ih (fun g hg => hext g (List.mem_cons_of_mem f hg))
         (fun g hg => hne g (List.mem_cons_of_mem f hg))]
    rcases hs with h | h <;> subst h
    · simp [export_file, tile_path, Function.comp, hlen, hfmt]
    · simp [export_file, tile_path, Function.comp, hlen, hfmt, flip_y_flip_y]

/-- Witness for C1 at the one-tile pyramid 0/0/0.png with one byte. -/
theorem disk_roundtrip_witness :
    (mbtiles_to_disk "tms" "png" id
        (disk_to_mbtiles "tms" (some "png") [⟨0, 0, 0, "png", [80]⟩])).files
      = [⟨["0", "0"], "0.png", [80]⟩] := by
  have h := disk_roundtrip "tms" "png" id [⟨0, 0, 0, "png", [80]⟩]
    (Or.inl rfl) (by decide) (by decide) (by decide)
  exact h.trans (by decide)

/-- Counterexample to C1 as stated, at two concrete inputs.  First, the
pyramid holding the single tile file 0/0/0.png with zero-length bytes
imports to one tile row, yet the export under the same scheme and
format writes no file at all, so the tile is not reproduced at
0/0/0.png.  Second, under the pbf format the export routes the stored
bytes through the external gzip decompressor (util.py line 302) before
writing; instantiating that decompressor with a concrete stand-in that,
like real gzip decompression of a compressed stream, returns different
bytes, the single pyramid file 0/0/0.pbf with bytes [31, 139] is
written back with bytes [1], not byte-identical content. -/
theorem disk_roundtrip_counterexample :
    (disk_to_mbtiles "tms" (some "png") [⟨0, 0, 0, "png", []⟩] = [⟨0, 0, 0, []⟩] ∧
     (mbtiles_to_disk "tms" "png" id
        (disk_to_mbtiles "tms" (some "png") [⟨0, 0, 0, "png", []⟩])).files = []) ∧
    ((mbtiles_to_disk "tms" "pbf" (fun _ => [1])
        (disk_to_mbtiles "tms" (some "pbf") [⟨0, 0, 0, "pbf", [31, 139]⟩])).files
      = [⟨["0", "0"], "0.pbf", [1]⟩] ∧
     (mbtiles_to_disk "tms" "pbf" (fun _ => [1])
        (disk_to_mbtiles "tms" (some "pbf") [⟨0, 0, 0, "pbf", [31, 139]⟩])).files
      ≠ [⟨["0", "0"], "0.pbf", [31, 139]⟩]) := by
  refine ⟨⟨rfl, rfl⟩, rfl, ?_⟩
  decide

/-- C5 (amended): under the ags scheme, a zoom directory without an L
draws the mismatch warning and the run continues with the best-effort
parse; but under a non-ags scheme, a zoom directory containing an L
draws the warning and then the decimal parse of the unchanged name
raises ValueError, so the run does abort. -/
theorem scheme_mismatch_policy (scheme : String) (zoomDir : List Char) :
    (scheme ≠ "ags" → 'L' ∈ zoomDir →
      (parse_zoom_dir scheme zoomDir).warned = true ∧
      (parse_zoom_dir scheme zoomDir).z = none) ∧
    (∀ n, 'L' ∉ zoomDir → decVal? zoomDir = some n →
      (parse_zoom_dir "ags" zoomDir).warned = true ∧
      (parse_zoom_dir "ags" zoomDir).z = some n) := by
  constructor
  · intro hs hL
    have hall : ¬(zoomDir ≠ [] ∧ zoomDir.all Char.isDigit = true) := by
      rintro ⟨-, hall⟩
      have hd := List.all_eq_true.mp hall 'L' hL
      exact absurd hd (by decide)
    have hne : parse_zoom_dir scheme zoomDir
        = { warned := decide ('L' ∈ zoomDir), z := decVal? zoomDir } := by
      unfold parse_zoom_dir
      rw [if_neg hs]
    refine ⟨?_, ?_⟩
    · rw [hne]
      simp [hL]
    · rw [hne]
      show decVal? zoomDir = none
      unfold decVal?
      rw [if_neg hall]
  · intro n hL hval
    have hfil : zoomDir.filter (fun c => decide (c ≠ 'L')) = zoomDir := by
      rw [List.filter_eq_self]
      intro c hc
      simp only [decide_eq_true_eq]
      intro hcl
      exact hL (hcl ▸ hc)
    have hags : parse_zoom_dir "ags" zoomDir
        = { warned := !(decide ('L' ∈ zoomDir)),
            z := decVal? (zoomDir.filter fun c => decide (c ≠ 'L')) } := by
      unfold parse_zoom_dir
      rw [if_pos rfl]
    refine ⟨?_, ?_⟩
    · rw [hags]
      simp [hL]
    · rw [hags]
      show decVal? (zoomDir.filter fun c => decide (c ≠ 'L')) = some n
      rw [hfil]
      exact hval

/-- Counterexample to C5 as stated: the zoom directory L01 under the
default tms scheme draws the warning, but the subsequent int parse of
"L01" fails and the run aborts rather than continuing. -/
theorem scheme_mismatch_counterexample :
    (parse_zoom_dir "tms" ['L', '0', '1']).warned = true ∧
    (parse_zoom_dir "tms" ['L', '0', '1']).z = none := by
  constructor <;> rfl

/-- Witness for C5 at the directories L0 (tms scheme) and 3 (ags scheme). -/
theorem scheme_mismatch_policy_witness :
    (parse_zoom_dir "tms" ['L', '0']).z = none ∧
    (parse_zoom_dir "ags" ['3']).z = some 3 :=
  ⟨((scheme_mismatch_policy "tms" ['L', '0']).1 (by decide) (by decide)).2,
   ((scheme_mismatch_policy "ags" ['3']).2 3 (by decide) (by decide)).2⟩

/-- C10: a leaf-directory file whose name holds no dot makes the
two-element unpacking of split fail: the loop aborts naming that file,
the matching files before it are the only ones written, and the files
after it are never examined. -/
theorem no_dot_file_aborts (fmt : Option (List Char))
    (pre : List (List Char × List Nat)) (bad : List Char) (d : List Nat)
    (post : List (List Char × List Nat))
    (hbad : splitOnceDot bad = none)
    (hpre : ∀ p ∈ pre, (splitOnceDot p.1).isSome = true) :
    (import_leaf_files fmt (pre ++ (bad, d) :: post)).2 = some bad ∧
    (import_leaf_files fmt (pre ++ (bad, d) :: post)).1
      = pre.flatMap (fun p =>
          match splitOnceDot p.1 with
          | some q => if fmt = some q.2 then [(q.1, q.2, p.2)] else []
          | none => []) := by
  induction pre with
  | nil =>
    constructor <;> simp [import_leaf_files, hbad]
  | cons p pre ih =>
    obtain ⟨q, hq⟩ := Option.isSome_iff_exists.mp (hpre p (List.mem_cons_self p pre))
    obtain ⟨h1, h2⟩ := ih (fun x hx => hpre x (List.mem_cons_of_mem p hx))
    constructor
    · rw [List.cons_append]
      simp [import_leaf_files, hq, h1]
    · rw [List.cons_append, List.flatMap_cons]
      simp [import_leaf_files, hq, h2]

/-- The chunk-local lookup fails exactly when the byte sequence is not
among the seen ones. -/
theorem lookupSeen_none_iff (d : List Nat) (seen : List (List Nat × Nat)) :
    lookupSeen d seen = none ↔ d ∉ seen.map Prod.fst := by
  induction seen with
  | nil => simp [lookupSeen]
  | cons p rest ih =>
    by_cases h : d = p.1
    · simp [lookupSeen, h]
    · simp [lookupSeen, h, ih]

/-- A successful chunk-local lookup returns a paired identifier. -/
theorem lookupSeen_mem (d : List Nat) (seen : List (List Nat × Nat)) (i : Nat)
    (h : lookupSeen d seen = some i) : (d, i) ∈ seen := by
  induction seen with
  | nil => cases h
  | cons p rest ih =>
    by_cases hd : d = p.1
    · rw [lookupSeen, if_pos hd] at h
      obtain rfl := Option.some.inj h
      have hp : (d, p.2) = p := by rw [hd]
      rw [hp]
      exact List.mem_cons_self p rest
    · rw [lookupSeen, if_neg hd] at h
      exact List.mem_cons_of_mem _ (ih h)

/-- An identifier above every stored one matches no images row. -/
theorem filter_id_eq_nil (images : List ImgRow) (n : Nat)
    (h : ∀ im ∈ images, im.tile_id < n) :
    images.filter (fun im => decide (im.tile_id = n)) = [] := by
  rw [List.filter_eq_nil_iff]
  intro im him
  simp only [decide_eq_true_eq]
  exact Nat.ne_of_lt (h im him)

/-- With pairwise-distinct identifiers, filtering the images on a
stored identifier returns exactly its row. -/
theorem filter_id_singleton (images : List ImgRow) (i : Nat) (d : List Nat)
    (hmem : (⟨i, d⟩ : ImgRow) ∈ images)
    (hnd : (images.map ImgRow.tile_id).Nodup) :
    images.filter (fun im => decide (im.tile_id = i)) = [⟨i, d⟩] := by
  induction images with
  | nil => cases hmem
  | cons a rest ih =>
    rw [List.map_cons, List.nodup_cons] at hnd
    rcases List.mem_cons.mp hmem with h | h
    · rw [← h] at hnd ⊢
      rw [List.filter_cons, if_pos (by simp)]
      have hrest : rest.filter (fun im => decide (im.tile_id = i)) = [] := by
        rw [List.filter_eq_nil_iff]
        intro im him
        simp only [decide_eq_true_eq]
        intro he
        exact hnd.1 (List.mem_map.mpr ⟨im, him, he⟩)
      rw [hrest]
    · have hne : ¬(a.tile_id = i) := by
        intro he
        refine hnd.1 ?_
        rw [he]
        exact List.mem_map.mpr ⟨⟨i, d⟩, h, rfl⟩
      rw [List.filter_cons, if_neg (by simpa using hne)]
      exact ih h hnd.2

/-- Appending a fresh-identifier blob to images leaves the join of the
existing map rows unchanged. -/
theorem flatMap_filter_extend (mp : List MapRow) (images : List ImgRow)
    (n : Nat) (d : List Nat) (h : ∀ m ∈ mp, m.tile_id < n) :
    (mp.flatMap fun m =>
        ((images ++ [(⟨n, d⟩ : ImgRow)]).filter
            fun im => decide (im.tile_id = m.tile_id)).map
          fun im => TileRow.mk m.z m.x m.y im.tile_data)
      = mp.flatMap fun m =>
          (images.filter fun im => decide (im.tile_id = m.tile_id)).map
            fun im => TileRow.mk m.z m.x m.y im.tile_data := by
  induction mp with
  | nil => rfl
  | cons m rest ih =>
    rw [List.flatMap_cons, List.flatMap_cons,
      ih fun x hx => h x (List.mem_cons_of_mem m hx)]
    congr 1
    rw [List.filter_append]
    have hone : [(⟨n, d⟩ : ImgRow)].filter
        (fun im => decide (im.tile_id = m.tile_id)) = [] := by
      rw [List.filter_eq_nil_iff]
      intro im him
      simp only [List.mem_singleton] at him
      subst him
      simp only [decide_eq_true_eq]
      exact Nat.ne_of_gt (h m (List.mem_cons_self m rest))
    rw [hone, List.append_nil]

/-- One compaction row step preserves the invariants, appends exactly
the source row to the tiles view, grows images by one exactly when the
bytes are new to the chunk, and extends the chunk-local seen keys
accordingly. -/
theorem compression_row_spec (s : CompState) (seen : List (List Nat × Nat))
    (r : TileRow) (h1 : CompInv s) (h2 : SeenInv s seen) :
    CompInv (compression_row (s, seen) r).1 ∧
    SeenInv (compression_row (s, seen) r).1 (compression_row (s, seen) r).2 ∧
    compression_finalize (compression_row (s, seen) r).1
      = compression_finalize s ++ [r] ∧
    (compression_row (s, seen) r).1.images.length
      = s.images.length + (if r.data ∈ seen.map Prod.fst then 0 else 1) ∧
    (compression_row (s, seen) r).2.map Prod.fst
      = seen.map Prod.fst
        ++ (if r.data ∈ seen.map Prod.fst then [] else [r.data]) := by
  obtain ⟨hA, hB, hC⟩ := h1
  rcases hcase : lookupSeen r.data seen with _ | i
  · have hmem : r.data ∉ seen.map Prod.fst := (lookupSeen_none_iff _ _).mp hcase
    simp only [compression_row, hcase]
    refine ⟨⟨?_, ?_, ?_⟩, ?_, ?_, ?_, ?_⟩
    · intro im him
      rcases List.mem_append.mp him with hin | hin
      · exact Nat.lt_succ_of_lt (hA im hin)
      · simp only [List.mem_singleton] at hin
        subst hin
        exact Nat.lt_succ_self _
    · rw [List.map_append]
      rw [List.nodup_append]
      refine ⟨hB, List.nodup_singleton _, ?_⟩
      intro a ha hb
      simp only [List.map_cons, List.map_nil, List.mem_singleton] at hb
      subst hb
      obtain ⟨im, him, hid⟩ := List.mem_map.mp ha
      exact Nat.lt_irrefl _ (hid ▸ hA im him)
    · intro m hm
      rcases List.mem_append.mp hm with hin | hin
      · exact Nat.lt_succ_of_lt (hC m hin)
      · simp only [List.mem_singleton] at hin
        subst hin
        exact Nat.lt_succ_self _
    · intro p hp
      rcases List.mem_append.mp hp with hin | hin
      · exact List.mem_append_left _ (h2 p hin)
      · simp only [List.mem_singleton] at hin
        subst hin
        exact List.mem_append_right _ (List.mem_singleton.mpr rfl)
    · unfold compression_finalize
      simp only
      rw [List.flatMap_append, flatMap_filter_extend s.map s.images s.nextId r.data hC]
      congr 1
      rw [List.flatMap_cons, List.flatMap_nil, List.append_nil, List.filter_append,
        filter_id_eq_nil s.images s.nextId hA]
      simp
    · simp [hmem]
    · simp [hmem]
  · have hpair : (r.data, i) ∈ seen := lookupSeen_mem _ _ _ hcase
    have hmem : r.data ∈ seen.map Prod.fst :=
      List.mem_map.mpr ⟨(r.data, i), hpair, rfl⟩
    have himg : (⟨i, r.data⟩ : ImgRow) ∈ s.images := h2 (r.data, i) hpair
    simp only [compression_row, hcase]
    refine ⟨⟨hA, hB, ?_⟩, ?_, ?_, ?_, ?_⟩
    · intro m hm
      rcases List.mem_append.mp hm with hin | hin
      · exact hC m hin
      · simp only [List.mem_singleton] at hin
        subst hin
        exact hA _ himg
    · intro p hp
      exact h2 p hp
    · unfold compression_finalize
      simp only
      rw [List.flatMap_append]
      congr 1
      rw [List.flatMap_cons, List.flatMap_nil, List.append_nil,
        filter_id_singleton s.images i r.data himg hB]
      simp
    · simp [hmem]
    · simp [hmem]

/-- The set of already-seen byte sequences only matters up to
membership for the distinct count. -/
theorem countDistinct_congr (s1 s2 : List (List Nat)) (l : List TileRow)
    (h : ∀ d, d ∈ s1 ↔ d ∈ s2) : countDistinct s1 l = countDistinct s2 l := by
  induction l generalizing s1 s2 with
  | nil => rfl
  | cons r rest ih =>
    by_cases hm : r.data ∈ s1
    · simp only [countDistinct, if_pos hm, if_pos ((h r.data).mp hm)]
      exact ih s1 s2 h
    · simp only [countDistinct, if_neg hm, if_neg fun hx => hm ((h r.data).mpr hx)]
      rw [ih (r.data :: s1) (r.data :: s2) (by intro d; simp [h d])]

/-- Folding the row step over a chunk appends the rows to the view and
grows images by the number of byte sequences new relative to the seen
keys. -/
theorem compression_fold_spec (rows : List TileRow) (s : CompState)
    (seen : List (List Nat × Nat)) (h1 : CompInv s) (h2 : SeenInv s seen) :
    CompInv (rows.foldl compression_row (s, seen)).1 ∧
    compression_finalize (rows.foldl compression_row (s, seen)).1
      = compression_finalize s ++ rows ∧
    (rows.foldl compression_row (s, seen)).1.images.length
      = s.images.length + countDistinct (seen.map Prod.fst) rows := by
  induction rows generalizing s seen with
  | nil => exact ⟨h1, by simp, by simp [countDistinct]⟩
  | cons r rest ih =>
    obtain ⟨s1, i1, f1, l1, m1⟩ := compression_row_spec s seen r h1 h2
    obtain ⟨g1, g2, g3⟩ :=
      ih (compression_row (s, seen) r).1 (compression_row (s, seen) r).2 s1 i1
    rw [List.foldl_cons]
    refine ⟨g1, ?_, ?_⟩
    · rw [g2, f1, List.append_assoc, List.singleton_append]
    · rw [g3, l1, m1]
      by_cases hmem : r.data ∈ seen.map Prod.fst
      · rw [if_pos hmem, if_pos hmem, List.append_nil]
        simp only [countDistinct, if_pos hmem]
        omega
      · rw [if_neg hmem, if_neg hmem]
        simp only [countDistinct, if_neg hmem]
        rw [countDistinct_congr (seen.map Prod.fst ++ [r.data])
          (r.data :: seen.map Prod.fst) rest (by intro d; simp; tauto)]
        omega

/-- One chunk of the compaction: view extended by the chunk rows,
images grown by the number of distinct byte sequences of the chunk. -/
theorem compression_chunk_spec (s : CompState) (rows : List TileRow)
    (h1 : CompInv s) :
    CompInv (compression_chunk s rows) ∧
    compression_finalize (compression_chunk s rows)
      = compression_finalize s ++ rows ∧
    (compression_chunk s rows).images.length
      = s.images.length + countDistinct [] rows := by
  obtain ⟨g1, g2, g3⟩ :=
    compression_fold_spec rows s [] h1 (by intro p hp; cases hp)
  exact ⟨g1, g2, g3⟩

/-- After k rounds of `compression_do`, the view holds the first
k * chunk rows and the images count is the sum of the per-chunk
distinct counts. -/
theorem compression_rounds_spec (chunk : Nat) (rows : List TileRow) (k : Nat) :
    CompInv ((List.range k).foldl
        (fun s i => compression_chunk s ((rows.drop (i * chunk)).take chunk))
        ⟨0, [], []⟩) ∧
    compression_finalize ((List.range k).foldl
        (fun s i => compression_chunk s ((rows.drop (i * chunk)).take chunk))
        ⟨0, [], []⟩)
      = rows.take (k * chunk) ∧
    ((List.range k).foldl
        (fun s i => compression_chunk s ((rows.drop (i * chunk)).take chunk))
        ⟨0, [], []⟩).images.length
      = ((List.range k).map
          (fun i => countDistinct [] ((rows.drop (i * chunk)).take chunk))).sum := by
  induction k with
  | zero =>
    refine ⟨by simp [CompInv], ?_, rfl⟩
    show compression_finalize ⟨0, [], []⟩ = rows.take (0 * chunk)
    rw [Nat.zero_mul, List.take_zero]
    rfl
  | succ k ih =>
    obtain ⟨g1, g2, g3⟩ := ih
    rw [List.range_succ, List.foldl_append, List.foldl_cons, List.foldl_nil,
      List.map_append, List.sum_append]
    obtain ⟨c1, c2, c3⟩ :=
      compression_chunk_spec _ ((rows.drop (k * chunk)).take chunk) g1
    refine ⟨c1, ?_, ?_⟩
    · rw [c2, g2, ← List.take_add]
      congr 1
      ring
    · rw [c3, g3]
      simp

/-- C2: `compression_do` over a tiles table with contiguous rowids
1..N followed by `compression_finalize` yields a tiles view holding
exactly the original rows: same coordinates, same bytes. -/
theorem compression_roundtrip (chunk : Nat) (hc : 0 < chunk)
    (rows : List TileRow) :
    compression_finalize (compression_do chunk rows) = rows := by
  obtain ⟨-, h2, -⟩ := compression_rounds_spec chunk rows (rows.length / chunk + 1)
  unfold compression_do
  rw [h2]
  apply List.take_of_length_le
  have hdm := Nat.div_add_mod rows.length chunk
  have hlt : rows.length % chunk < chunk := Nat.mod_lt _ hc
  calc rows.length
      = chunk * (rows.length / chunk) + rows.length % chunk := hdm.symm
    _ ≤ chunk * (rows.length / chunk) + chunk := by omega
    _ = (rows.length / chunk + 1) * chunk := by ring

/-- Witness for C2: three rows with identical bytes compacted with
chunk size 2 reconstruct exactly. -/
theorem compression_roundtrip_witness :
    compression_finalize (compression_do 2
        [⟨0, 0, 0, [5]⟩, ⟨0, 0, 1, [5]⟩, ⟨0, 0, 2, [5]⟩])
      = [⟨0, 0, 0, [5]⟩, ⟨0, 0, 1, [5]⟩, ⟨0, 0, 2, [5]⟩] :=
  compression_roundtrip 2 (by decide) [⟨0, 0, 0, [5]⟩, ⟨0, 0, 1, [5]⟩, ⟨0, 0, 2, [5]⟩]

/-- C3: deduplication is chunk-local.  The number of images rows equals
the sum over the rowid windows of the number of distinct byte sequences
within each window, not the global number of distinct byte sequences,
and all images rows carry pairwise distinct tile_ids, so byte-identical
tiles in different windows occupy separate images rows. -/
theorem compression_chunk_local_dedup (chunk : Nat) (hc : 0 < chunk)
    (rows : List TileRow) :
    (compression_do chunk rows).images.length
      = ((List.range (rows.length / chunk + 1)).map
          (fun i => countDistinct [] ((rows.drop (i * chunk)).take chunk))).sum ∧
    ((compression_do chunk rows).images.map ImgRow.tile_id).Nodup := by
  obtain ⟨h1, -, h3⟩ := compression_rounds_spec chunk rows (rows.length / chunk + 1)
  unfold compression_do
  exact ⟨h3, h1.2.1⟩

/-- Witness for C3: two rows with identical bytes in different windows
of size 1 yield two images rows, although only one distinct byte
sequence exists globally. -/
theorem compression_chunk_local_dedup_witness :
    (compression_do 1 [⟨0, 0, 0, [7]⟩, ⟨0, 0, 1, [7]⟩]).images.length = 2 ∧
    ((compression_do 1
        [⟨0, 0, 0, [7]⟩, ⟨0, 0, 1, [7]⟩]).images.map ImgRow.tile_id).Nodup := by
  have h := compression_chunk_local_dedup 1 (by decide) [⟨0, 0, 0, [7]⟩, ⟨0, 0, 1, [7]⟩]
  exact ⟨h.1.trans (by decide), h.2⟩

/-- Witness for C10: the directory listing 0.png, README, 1.png with
the png format aborts at README after writing only 0.png. -/
theorem no_dot_file_aborts_witness :
    (import_leaf_files (some ['p', 'n', 'g'])
        [(['0', '.', 'p', 'n', 'g'], [1]),
         (['R', 'E', 'A', 'D', 'M', 'E'], [2]),
         (['1', '.', 'p', 'n', 'g'], [3])]).2
      = some ['R', 'E', 'A', 'D', 'M', 'E'] ∧
    (import_leaf_files (some ['p', 'n', 'g'])
        [(['0', '.', 'p', 'n', 'g'], [1]),
         (['R', 'E', 'A', 'D', 'M', 'E'], [2]),
         (['1', '.', 'p', 'n', 'g'], [3])]).1
      = [(['0'], ['p', 'n', 'g'], [1])] := by
  have h := no_dot_file_aborts (some ['p', 'n', 'g'])
    [(['0', '.', 'p', 'n', 'g'], [1])] ['R', 'E', 'A', 'D', 'M', 'E'] [2]
    [(['1', '.', 'p', 'n', 'g'], [3])] (by decide) (by decide)
  exact ⟨h.1, h.2.trans (by decide)⟩

end Mbutil
